import Mathlib

/-!
Verification of the umbu template engine's execution core against its
specification.  The Go sources are shallowly embedded: each Lean definition
below mirrors one Go function or data structure (names are kept where Lean
permits).  Machine integers are modelled as `Int`/`Nat` with explicit
wrapping modulo `2 ^ 64` where the Go code can overflow; `float64` values
are modelled as exact rationals (the claims never depend on rounding,
infinities or NaNs); fallible Go code returns `Option`/`Except` or an
explicit outcome type that distinguishes a runtime fault (panic) from a
returned error.
-/

/-! ### Map keys and `sortKeys` (exec.go)

`sortKeys` sorts a slice of `reflect.Value` map keys.  A Go map's keys all
share one kind; the comparator is chosen from the kind of the first key and
projects every key to that kind's underlying value (`.Int()`, `.Uint()`,
`.Float()`, `.String()`).  We model a key as one of the four sortable kinds
and give each projection a default result on foreign kinds (in Go such a
projection would panic, but it is unreachable because map keys are
homogeneous; our theorems carry the homogeneity hypothesis).  Go's
`sort.Sort` is an unspecified comparison sort whose result is nondecreasing
with respect to `Less`; we model it with insertion sort, which produces the
same list whenever the keys are distinct (the case for map keys). -/

/-- A sortable map key.  Go compares strings bytewise; UTF-8 byte order
agrees with code-point order, so a string key is modelled as its character
list with the lexicographic order. -/
inductive RKey where
  | i (v : Int)
  | u (v : Nat)
  | s (v : List Char)
  | f (v : Rat)
deriving DecidableEq, Repr

inductive KKind where
  | ki | ku | ks | kf
deriving DecidableEq, Repr

def RKey.kind : RKey → KKind
  | .i _ => .ki
  | .u _ => .ku
  | .s _ => .ks
  | .f _ => .kf

def RKey.intVal : RKey → Int
  | .i v => v
  | _ => 0

def RKey.uintVal : RKey → Nat
  | .u v => v
  | _ => 0

def RKey.strVal : RKey → List Char
  | .s v => v
  | _ => []

def RKey.floatVal : RKey → Rat
  | .f v => v
  | _ => 0

/-- `rvInts.Less` as a (total) nonstrict order used to model the sorted
result of `sort.Sort(rvInts{v})`. -/
def rvIntsLe (a b : RKey) : Prop := a.intVal ≤ b.intVal

def rvUintsLe (a b : RKey) : Prop := a.uintVal ≤ b.uintVal

def rvStringsLe (a b : RKey) : Prop := a.strVal ≤ b.strVal

def rvFloatsLe (a b : RKey) : Prop := a.floatVal ≤ b.floatVal

instance : DecidableRel rvIntsLe := fun a b =>
  inferInstanceAs (Decidable (a.intVal ≤ b.intVal))

instance : DecidableRel rvUintsLe := fun a b =>
  inferInstanceAs (Decidable (a.uintVal ≤ b.uintVal))

instance : DecidableRel rvStringsLe := fun a b =>
  inferInstanceAs (Decidable (a.strVal ≤ b.strVal))

instance : DecidableRel rvFloatsLe := fun a b =>
  inferInstanceAs (Decidable (a.floatVal ≤ b.floatVal))

instance : IsTotal RKey rvIntsLe := ⟨fun a b => le_total a.intVal b.intVal⟩
instance : IsTotal RKey rvUintsLe := ⟨fun a b => le_total a.uintVal b.uintVal⟩
instance : IsTotal RKey rvStringsLe := ⟨fun a b => le_total a.strVal b.strVal⟩
instance : IsTotal RKey rvFloatsLe := ⟨fun a b => le_total a.floatVal b.floatVal⟩

instance : IsTrans RKey rvIntsLe := ⟨fun _ _ _ => le_trans⟩
instance : IsTrans RKey rvUintsLe := ⟨fun _ _ _ => le_trans⟩
instance : IsTrans RKey rvStringsLe := ⟨fun _ _ _ => le_trans⟩
instance : IsTrans RKey rvFloatsLe := ⟨fun _ _ _ => le_trans⟩

/-- Strict versions of the per-kind key orders (for stating uniqueness of
the sorted order of distinct keys). -/
def rvIntsLt (a b : RKey) : Prop := a.intVal < b.intVal

def rvUintsLt (a b : RKey) : Prop := a.uintVal < b.uintVal

def rvStringsLt (a b : RKey) : Prop := a.strVal < b.strVal

def rvFloatsLt (a b : RKey) : Prop := a.floatVal < b.floatVal

instance : IsAntisymm RKey rvIntsLt :=
  ⟨fun _ _ h h' => absurd h (not_lt_of_gt h')⟩
instance : IsAntisymm RKey rvUintsLt :=
  ⟨fun _ _ h h' => absurd h (not_lt_of_gt h')⟩
instance : IsAntisymm RKey rvStringsLt :=
  ⟨fun _ _ h h' => absurd h (not_lt_of_gt h')⟩
instance : IsAntisymm RKey rvFloatsLt :=
  ⟨fun _ _ h h' => absurd h (not_lt_of_gt h')⟩

/-- The nonstrict key order belonging to a key kind. -/
def kindLe : KKind → RKey → RKey → Prop
  | .ki => rvIntsLe
  | .ku => rvUintsLe
  | .ks => rvStringsLe
  | .kf => rvFloatsLe

/-- The strict key order belonging to a key kind. -/
def kindLt : KKind → RKey → RKey → Prop
  | .ki => rvIntsLt
  | .ku => rvUintsLt
  | .ks => rvStringsLt
  | .kf => rvFloatsLt

instance kindLeDec : (κ : KKind) → DecidableRel (kindLe κ)
  | .ki => inferInstanceAs (DecidableRel rvIntsLe)
  | .ku => inferInstanceAs (DecidableRel rvUintsLe)
  | .ks => inferInstanceAs (DecidableRel rvStringsLe)
  | .kf => inferInstanceAs (DecidableRel rvFloatsLe)

instance kindLeTotal : (κ : KKind) → IsTotal RKey (kindLe κ)
  | .ki => inferInstanceAs (IsTotal RKey rvIntsLe)
  | .ku => inferInstanceAs (IsTotal RKey rvUintsLe)
  | .ks => inferInstanceAs (IsTotal RKey rvStringsLe)
  | .kf => inferInstanceAs (IsTotal RKey rvFloatsLe)

instance kindLeTrans : (κ : KKind) → IsTrans RKey (kindLe κ)
  | .ki => inferInstanceAs (IsTrans RKey rvIntsLe)
  | .ku => inferInstanceAs (IsTrans RKey rvUintsLe)
  | .ks => inferInstanceAs (IsTrans RKey rvStringsLe)
  | .kf => inferInstanceAs (IsTrans RKey rvFloatsLe)

instance kindLtAntisymm : (κ : KKind) → IsAntisymm RKey (kindLt κ)
  | .ki => inferInstanceAs (IsAntisymm RKey rvIntsLt)
  | .ku => inferInstanceAs (IsAntisymm RKey rvUintsLt)
  | .ks => inferInstanceAs (IsAntisymm RKey rvStringsLt)
  | .kf => inferInstanceAs (IsAntisymm RKey rvFloatsLt)

/-- `sortKeys` from exec.go: slices of length ≤ 1 are returned unchanged,
otherwise the comparator is selected from the kind of the first key
(`v[0].Kind()`). -/
def sortKeys : List RKey → List RKey
  | [] => []
  | [k] => [k]
  | k :: b :: t => (k :: b :: t).insertionSort (kindLe k.kind)

theorem sortKeys_perm (l : List RKey) : (sortKeys l).Perm l := by
  match l with
  | [] => exact List.Perm.refl _
  | [k] => exact List.Perm.refl _
  | k :: b :: t => exact List.perm_insertionSort _ _

theorem sortKeys_sorted (κ : KKind) (l : List RKey)
    (h : ∀ k ∈ l, k.kind = κ) : List.Sorted (kindLe κ) (sortKeys l) := by
  match l with
  | [] => simp [sortKeys]
  | [k] => simp [sortKeys]
  | k :: b :: t =>
    have hk : k.kind = κ := h k (by simp)
    show List.Sorted (kindLe κ) ((k :: b :: t).insertionSort (kindLe k.kind))
    rw [hk]
    exact List.sorted_insertionSort _ _

/-- On keys of one kind, the nonstrict key order together with inequality
gives the strict key order. -/
theorem kindLt_of_kindLe_ne {κ : KKind} {a b : RKey} (ha : a.kind = κ)
    (hb : b.kind = κ) (hle : kindLe κ a b) (hne : a ≠ b) : kindLt κ a b := by
  subst ha
  cases a <;> cases b <;>
    simp_all [RKey.kind, kindLe, kindLt, rvIntsLe, rvUintsLe, rvStringsLe,
      rvFloatsLe, rvIntsLt, rvUintsLt, rvStringsLt, rvFloatsLt,
      RKey.intVal, RKey.uintVal, RKey.strVal, RKey.floatVal] <;>
    exact lt_of_le_of_ne (by assumption) (by assumption)

theorem sortKeys_sorted_lt (κ : KKind) (l : List RKey)
    (h : ∀ k ∈ l, k.kind = κ) (hnd : l.Nodup) :
    List.Sorted (kindLt κ) (sortKeys l) := by
  have hperm := sortKeys_perm l
  have hnd' : (sortKeys l).Nodup := hperm.nodup_iff.mpr hnd
  have h' : ∀ k ∈ sortKeys l, k.kind = κ := fun k hk => h k (hperm.mem_iff.mp hk)
  have hs := sortKeys_sorted κ l h
  have hand := List.Pairwise.and hs hnd'
  exact hand.imp_of_mem fun {a b} ha hb hab =>
    kindLt_of_kindLe_ne (h' a ha) (h' b hb) hab.1 hab.2

/-- The sorted key order is a function of the key *set* alone: permuting the
input (e.g. a different hash-iteration order of `MapKeys`) does not change
the result. -/
theorem sortKeys_perm_invariant (κ : KKind) (l l' : List RKey)
    (hp : l.Perm l') (h : ∀ k ∈ l, k.kind = κ) (hnd : l.Nodup) :
    sortKeys l = sortKeys l' := by
  have h' : ∀ k ∈ l', k.kind = κ := fun k hk => h k (hp.mem_iff.mpr hk)
  have hnd' : l'.Nodup := hp.nodup_iff.mp hnd
  have hpp : (sortKeys l).Perm (sortKeys l') :=
    ((sortKeys_perm l).trans hp).trans (sortKeys_perm l').symm
  have := kindLtAntisymm κ
  exact List.eq_of_perm_of_sorted hpp
    (sortKeys_sorted_lt κ l h hnd) (sortKeys_sorted_lt κ l' h' hnd')

/-! ### Range iteration (exec_range.go)

The collection value a `RangeNode`'s pipeline can evaluate to, after
`indirect`.  Element values are opaque payloads modelled as `Int`.
`chan` carries the full sequence of values the channel will deliver before
closing, plus its nil-ness; `intv` is a value of kind `reflect.Int`;
`iter` is a struct value together with whether it (or its address)
implements the `umbu.Iterator`/`IteratorGetter` capability and the item
sequence the iterator produces; `invalid` is `reflect.Invalid`; `other` is
any other non-iterable kind (hitting the `default:` arm).  The slice and
array kinds behave identically in this code and share the `arr`
constructor.  The `OpSum` slice-append path of the expression evaluator and
struct kinds outside arity 2 are unreachable here and are not part of this
type's concerns. -/
inductive RVal where
  | arr (elems : List Int)
  | rmap (entries : List (RKey × Int))
  | chan (isNil : Bool) (elems : List Int)
  | intv (n : Int)
  | iter (hasIter : Bool) (elems : List Int)
  | invalid
  | other
deriving DecidableEq, Repr

/-- `val.MapIndex(key)`: the value stored under `key` (total with a default;
all uses look up keys returned by `MapKeys`, i.e. present keys). -/
def mapIndex (entries : List (RKey × Int)) (k : RKey) : Int :=
  (((entries.find? fun e => e.1 = k).map Prod.snd).getD 0)

/-- The key sequence `for _, key := range sortKeys(val.MapKeys())` iterates
over.  `MapKeys` is modelled as the entry list's own key order (Go's hash
iteration order is arbitrary; `sortKeys_perm_invariant` shows the result
does not depend on it). -/
def mapVisitKeys (entries : List (RKey × Int)) : List RKey :=
  sortKeys (entries.map Prod.fst)

/-- Pairs each list element with its 0-based index, starting at `n`. -/
def enumFrom {α : Type} (n : Nat) : List α → List (Nat × α)
  | [] => []
  | e :: rest => (n, e) :: enumFrom (n + 1) rest

/-- Result of one of the per-arity range walkers: the per-iteration
payloads passed to `oneIteration` in order, the returned `empty` flag, and
whether `errorf` fired (a panic, so no `empty` result is produced and the
caller's else-list check is never reached). -/
structure RDRes (α : Type) where
  visits : List α
  empty : Bool
  err : Bool
deriving DecidableEq, Repr

/-- `State.walkRangeDefault` (arity 0 and plain arity 1): only the element
is passed to each iteration.  Faithful quirks: a drained channel that
delivered no value reports empty (`i == 0` check), while the
`reflect.Int` arm falls through the switch and *always* returns
`empty = true`, even after iterating. -/
def walkRangeDefault : RVal → RDRes Int
  | .arr es => if es.length = 0 then ⟨[], true, false⟩ else ⟨es, false, false⟩
  | .rmap entries =>
    if entries.length = 0 then ⟨[], true, false⟩
    else ⟨(mapVisitKeys entries).map (mapIndex entries), false, false⟩
  | .chan true _ => ⟨[], true, false⟩
  | .chan false es =>
    if es.length = 0 then ⟨[], true, false⟩ else ⟨es, false, false⟩
  | .intv n => ⟨(List.range n.toNat).map Int.ofNat, true, false⟩
  | .invalid => ⟨[], true, false⟩
  | .iter _ _ => ⟨[], false, true⟩
  | .other => ⟨[], false, true⟩

/-- `State.walkRangeWithArgElemAndIndex` (arity 2): each iteration receives
(index-or-key, element).  Faithful quirks: the channel arm has no `i == 0`
check, so a non-nil channel that closes immediately is *not* reported
empty; the struct arm drives the `Iterator` capability and reports
`i == 0`. -/
def walkRangeWithArgElemAndIndex : RVal → RDRes (RKey × Int)
  | .arr es =>
    if es.length = 0 then ⟨[], true, false⟩
    else ⟨(enumFrom 0 es).map fun p => (RKey.i p.1, p.2), false, false⟩
  | .rmap entries =>
    if entries.length = 0 then ⟨[], true, false⟩
    else ⟨(mapVisitKeys entries).map fun k => (k, mapIndex entries k),
      false, false⟩
  | .chan true _ => ⟨[], true, false⟩
  | .chan false es =>
    ⟨(enumFrom 0 es).map fun p => (RKey.i p.1, p.2), false, false⟩
  | .iter true es =>
    ⟨(enumFrom 0 es).map fun p => (RKey.i p.1, p.2), es.length = 0, false⟩
  | .iter false _ => ⟨[], false, true⟩
  | .invalid => ⟨[], true, false⟩
  | .intv _ => ⟨[], false, true⟩
  | .other => ⟨[], false, true⟩

/-- `State.walkRangeWithArgElemAndIndexAndLast` (arity 3): each iteration
receives (index-or-key, element, isLast).  The channel arm reads one
element ahead so it can flag the final element. -/
def walkRangeWithArgElemAndIndexAndLast : RVal → RDRes (RKey × Int × Bool)
  | .arr es =>
    if es.length = 0 then ⟨[], true, false⟩
    else
      ⟨(enumFrom 0 es).map fun p => (RKey.i p.1, p.2, p.1 = es.length - 1),
        false, false⟩
  | .rmap entries =>
    if entries.length = 0 then ⟨[], true, false⟩
    else
      ⟨(enumFrom 0 (mapVisitKeys entries)).map
          (fun p => (p.2, mapIndex entries p.2, p.1 = entries.length - 1)),
        false, false⟩
  | .chan true _ => ⟨[], true, false⟩
  | .chan false [] => ⟨[], true, false⟩
  | .chan false es =>
    ⟨(enumFrom 0 es).map fun p => (RKey.i p.1, p.2, p.1 = es.length - 1),
      false, false⟩
  | .intv _ => ⟨[], false, true⟩
  | .iter _ _ => ⟨[], false, true⟩
  | .invalid => ⟨[], true, false⟩
  | .other => ⟨[], false, true⟩

/-- One snapshot of the mutable `RangeElemState` as seen by an iteration of
`walkRangeWithState` (arity 1 with a pointer-style variable). -/
structure StateSnap where
  index : Nat
  key : RKey
  isFirst : Bool
  isLast : Bool
  value : Int
deriving DecidableEq, Repr

/-- `State.walkRangeWithState`: a single `RangeElemState` is mutated in
place; we record the field values at each call of `oneIteration`.
Faithful quirks: for arrays and non-final channel elements the key is
`uint64(i)`, but the final channel element's key is set from the `int`
field `state.Index`, so its kind differs. -/
def walkRangeWithState : RVal → RDRes StateSnap
  | .arr es =>
    if es.length = 0 then ⟨[], true, false⟩
    else
      ⟨(enumFrom 0 es).map fun p =>
          ⟨p.1, .u p.1, p.1 = 0, p.1 = es.length - 1, p.2⟩, false, false⟩
  | .rmap entries =>
    if entries.length = 0 then ⟨[], true, false⟩
    else
      ⟨(enumFrom 0 (mapVisitKeys entries)).map
          (fun p =>
            ⟨p.1, p.2, p.1 = 0, p.1 = entries.length - 1,
              mapIndex entries p.2⟩),
        false, false⟩
  | .chan true _ => ⟨[], true, false⟩
  | .chan false [] => ⟨[], true, false⟩
  | .chan false es =>
    ⟨(enumFrom 0 es).map fun p =>
        if p.1 = es.length - 1 then ⟨p.1, .i p.1, p.1 = 0, true, p.2⟩
        else ⟨p.1, .u p.1, p.1 = 0, false, p.2⟩,
      false, false⟩
  | .intv _ => ⟨[], false, true⟩
  | .iter _ _ => ⟨[], false, true⟩
  | .invalid => ⟨[], true, false⟩
  | .other => ⟨[], false, true⟩

/-- The declared-variable arity of a `RangeNode`'s pipeline:
`len(r.Pipe.Decl)` 0, 1 with a plain variable, 1 with a pointer-style
variable, 2, or 3. -/
inductive Arity where
  | a0 | a1 | aState | a2 | a3
deriving DecidableEq, Repr

/-- Observable outcome of `State.walkRange`: how many times the body list
was walked, whether the else-list was walked, and whether execution
aborted with a range error. -/
structure WRRes where
  iterations : Nat
  elseWalked : Bool
  err : Bool
deriving DecidableEq, Repr

/-- `State.walkRange`: dispatch on the declared-variable arity.  Faithful
port of the control flow: in `case 0` the `if … { break }` falls out of the
switch on *both* branches (there is no `return` after it, unlike cases 1,
2 and 3), so control always reaches the trailing else-list check unless
`errorf` fired. -/
def walkRange (a : Arity) (hasElse : Bool) (val : RVal) : WRRes :=
  match a with
  | .a0 =>
    let r := walkRangeDefault val
    if r.err then ⟨r.visits.length, false, true⟩
    else ⟨r.visits.length, hasElse, false⟩
  | .a1 =>
    let r := walkRangeDefault val
    if r.err then ⟨r.visits.length, false, true⟩
    else if r.empty then ⟨r.visits.length, hasElse, false⟩
    else ⟨r.visits.length, false, false⟩
  | .aState =>
    let r := walkRangeWithState val
    if r.err then ⟨r.visits.length, false, true⟩
    else if r.empty then ⟨r.visits.length, hasElse, false⟩
    else ⟨r.visits.length, false, false⟩
  | .a2 =>
    let r := walkRangeWithArgElemAndIndex val
    if r.err then ⟨r.visits.length, false, true⟩
    else if r.empty then ⟨r.visits.length, hasElse, false⟩
    else ⟨r.visits.length, false, false⟩
  | .a3 =>
    let r := walkRangeWithArgElemAndIndexAndLast val
    if r.err then ⟨r.visits.length, false, true⟩
    else if r.empty then ⟨r.visits.length, hasElse, false⟩
    else ⟨r.visits.length, false, false⟩

theorem enumFrom_map_snd {α : Type} (n : Nat) (l : List α) :
    (enumFrom n l).map Prod.snd = l := by
  induction l generalizing n with
  | nil => rfl
  | cons e rest ih => simp [enumFrom, ih]

/-- **C1**: ranging over an associative (map) collection visits its entries
in the sorted order of their keys at every declared-variable arity: the
visit sequence of each arity's walker is the `sortKeys` order of the key
set, that order is strictly sorted by the key kind's value order (numeric
kinds ascending by value, strings lexicographically), it is a permutation
of the map's keys, and it is independent of the insertion/hash order in
which `MapKeys` delivers the keys. -/
theorem rangeMap_iterates_sortedKeys (κ : KKind) (entries : List (RKey × Int))
    (hk : ∀ k ∈ entries.map Prod.fst, k.kind = κ)
    (hnd : (entries.map Prod.fst).Nodup) :
    (walkRangeDefault (.rmap entries)).visits
        = (mapVisitKeys entries).map (mapIndex entries)
    ∧ (walkRangeWithArgElemAndIndex (.rmap entries)).visits.map Prod.fst
        = mapVisitKeys entries
    ∧ (walkRangeWithArgElemAndIndexAndLast (.rmap entries)).visits.map
          Prod.fst
        = mapVisitKeys entries
    ∧ (walkRangeWithState (.rmap entries)).visits.map StateSnap.key
        = mapVisitKeys entries
    ∧ List.Sorted (kindLt κ) (mapVisitKeys entries)
    ∧ (mapVisitKeys entries).Perm (entries.map Prod.fst)
    ∧ ∀ entries' : List (RKey × Int),
        (entries'.map Prod.fst).Perm (entries.map Prod.fst) →
        mapVisitKeys entries' = mapVisitKeys entries := by
  refine ⟨?_, ?_, ?_, ?_, ?_, ?_, ?_⟩
  · by_cases h : entries.length = 0
    · have he : entries = [] := List.length_eq_zero.mp h
      subst he
      simp [walkRangeDefault, mapVisitKeys, sortKeys]
    · simp [walkRangeDefault, h]
  · by_cases h : entries.length = 0
    · have he : entries = [] := List.length_eq_zero.mp h
      subst he
      simp [walkRangeWithArgElemAndIndex, mapVisitKeys, sortKeys]
    · simp only [walkRangeWithArgElemAndIndex, h, if_false, List.map_map]
      exact List.map_id _
  · by_cases h : entries.length = 0
    · have he : entries = [] := List.length_eq_zero.mp h
      subst he
      simp [walkRangeWithArgElemAndIndexAndLast, mapVisitKeys, sortKeys]
    · simp only [walkRangeWithArgElemAndIndexAndLast, h, if_false,
        List.map_map]
      exact enumFrom_map_snd 0 (mapVisitKeys entries)
  · by_cases h : entries.length = 0
    · have he : entries = [] := List.length_eq_zero.mp h
      subst he
      simp [walkRangeWithState, mapVisitKeys, sortKeys]
    · simp only [walkRangeWithState, h, if_false, List.map_map]
      exact enumFrom_map_snd 0 (mapVisitKeys entries)
  · exact sortKeys_sorted_lt κ _ hk hnd
  · exact sortKeys_perm _
  · intro entries' hp
    exact sortKeys_perm_invariant κ _ _ hp
      (fun k hkm => hk k (hp.mem_iff.mp hkm)) (hp.nodup_iff.mpr hnd)

/-- Witness for `rangeMap_iterates_sortedKeys`: the two-entry map
`{"b": 2, "a": 1}`, stored in insertion order `b, a`, is visited with keys
in the order `a, b`, and permuting the stored order does not change the
visit order. -/
theorem rangeMap_iterates_sortedKeys_witness :
    (walkRangeWithArgElemAndIndex
          (.rmap [(.s ['b'], 2), (.s ['a'], 1)])).visits.map Prod.fst
        = [.s ['a'], .s ['b']]
    ∧ mapVisitKeys [(.s ['a'], 1), (.s ['b'], 2)]
        = mapVisitKeys [(.s ['b'], 2), (.s ['a'], 1)] := by
  have h := rangeMap_iterates_sortedKeys .ks [(.s ['b'], 2), (.s ['a'], 1)]
    (by decide) (by decide)
  exact ⟨by rw [h.2.1]; decide, h.2.2.2.2.2.2 _ (by decide)⟩

/-- **C2** (code bug): at declared-variable arity 0, `walkRange`'s
`case 0` arm has no `return` after the `if … { break }`, so control falls
through to the else-list check even when the collection was non-empty: a
one-element array walks the body once *and* walks the else-list, while the
identical collection at arity 1 correctly skips the else-list.  Two more
divergences of the same shape: the `reflect.Int` arm of
`walkRangeDefault` always reports empty, so `range 3` at arity 1 walks the
body three times and then also walks the else-list; and the arity-2
channel arm never reports empty, so an exhausted (non-nil, empty) channel
walks the body zero times yet skips the else-list. -/
theorem walkRange_arity0_walks_else_on_nonempty :
    walkRange .a0 true (.arr [7]) = ⟨1, true, false⟩
    ∧ walkRange .a1 true (.arr [7]) = ⟨1, false, false⟩
    ∧ walkRange .a1 true (.intv 3) = ⟨3, true, false⟩
    ∧ walkRange .a2 true (.chan false []) = ⟨0, false, false⟩ := by decide

/-! ### The typed-value arithmetic evaluator (`expr.Expr`)

Operands are modelled *after* the evaluator's normalization pass (which
widens `uint8/16/32` to `uint64`, `int/int8/16/32` to `int64` and
`float32` to `float64`), so a value is one of the three 64-bit numeric
kinds, a string, or the invalid value.  `uint64` arithmetic wraps modulo
`2 ^ 64`; `int64` arithmetic is two's-complement; `float64` values are
exact rationals (`math.Pow` is modelled only at integer exponents, float
division by zero yields the junk value `0` instead of an infinity, and
`float64`-to-integer conversion of an out-of-range value — implementation
defined in Go — is modelled by wrapping; no claim below depends on those
corners).  The `OpSum` slice-append arm is omitted (no claim mentions it,
and `EVal` has no slice constructor).  The final `a.Convert(at)` of the
source converts the computed result back to the left operand's original
type: on the numeric paths the result already has that kind, but when a
string-concatenation fallback produced a string under a numeric left
operand, `reflect.Value.Convert` panics — those arms are `fault`.  A
`fault` is a runtime panic (Go: integer division by zero, `Convert`
failure, or `Interface()` on the invalid value); `badOp` is the returned
"bad operator" error. -/

/-- Truncation toward zero, as Go's `int64(f)`/`uint64(f)` conversions. -/
def ratTrunc (q : Rat) : Int := q.num.tdiv q.den

/-- Reinterpret an integer as a Go `uint64` (wrap modulo `2 ^ 64`). -/
def wrapU64 (z : Int) : Nat := (z % (2 : Int) ^ 64).toNat

/-- Reinterpret an integer as a Go `int64` (two's-complement wrap). -/
def wrapI64 (z : Int) : Int := (z + 2 ^ 63) % 2 ^ 64 - 2 ^ 63

inductive EVal where
  | i64 (v : Int)
  | u64 (v : Nat)
  | f64 (v : Rat)
  | str (s : List Char)
  | invalid
deriving DecidableEq, Repr

def EVal.isNum : EVal → Bool
  | .i64 _ | .u64 _ | .f64 _ => true
  | _ => false

/-- `fmt.Sprint` of an operand, used by the string-concatenation fallback
arms (the decimal rendering of a float is approximated by its rational
representation; no theorem below evaluates it). -/
def goSprint : EVal → List Char
  | .i64 v => (toString v).data
  | .u64 v => (toString v).data
  | .f64 q =>
    (toString q.num).data
      ++ (if q.den = 1 then [] else '/' :: (toString q.den).data)
  | .str s => s
  | .invalid => []

/-- Evaluation outcome: a returned value, the returned "bad operator …"
error, or a runtime panic. -/
inductive ExprOut where
  | ok (v : EVal)
  | badOp
  | fault
deriving DecidableEq, Repr

inductive Op where
  | sum | sub | multi | div | pow | mod | floor
deriving DecidableEq, Repr

/-- `math.Pow`, modelled at integer exponents (junk `0` elsewhere;
unreachable from every theorem below). -/
def ratPow (x y : Rat) : Rat :=
  if y.den = 1 then
    if 0 ≤ y.num then x ^ y.num.toNat else (x ^ (-y.num).toNat)⁻¹
  else 0

/-- `OpSum` block of `expr.Expr`. -/
def exprSum : EVal → EVal → ExprOut
  | .u64 x, .u64 y => .ok (.u64 ((x + y) % 2 ^ 64))
  | .u64 x, .i64 y => .ok (.u64 ((x + wrapU64 y) % 2 ^ 64))
  | .u64 x, .f64 q => .ok (.u64 ((x + wrapU64 (ratTrunc q)) % 2 ^ 64))
  | .u64 _, _ => .fault
  | .i64 x, .i64 y => .ok (.i64 (wrapI64 (x + y)))
  | .i64 x, .u64 y => .ok (.i64 (wrapI64 (x + wrapI64 y)))
  | .i64 x, .f64 q => .ok (.i64 (wrapI64 (x + wrapI64 (ratTrunc q))))
  | .i64 _, _ => .fault
  | .f64 x, .f64 y => .ok (.f64 (x + y))
  | .f64 x, .u64 y => .ok (.f64 (x + (y : Rat)))
  | .f64 x, .i64 y => .ok (.f64 (x + (y : Rat)))
  | .f64 _, _ => .fault
  | .str _, .invalid => .fault
  | .str s, b => .ok (.str (s ++ goSprint b))
  | .invalid, _ => .fault

/-- `OpSub` block of `expr.Expr`. -/
def exprSub : EVal → EVal → ExprOut
  | .u64 x, .u64 y => .ok (.u64 (wrapU64 ((x : Int) - y)))
  | .u64 x, .i64 y => .ok (.u64 (wrapU64 ((x : Int) - wrapU64 y)))
  | .u64 x, .f64 q => .ok (.u64 (wrapU64 ((x : Int) - wrapU64 (ratTrunc q))))
  | .u64 _, _ => .fault
  | .i64 x, .i64 y => .ok (.i64 (wrapI64 (x - y)))
  | .i64 x, .u64 y => .ok (.i64 (wrapI64 (x - wrapI64 y)))
  | .i64 x, .f64 q => .ok (.i64 (wrapI64 (x - wrapI64 (ratTrunc q))))
  | .i64 _, _ => .fault
  | .f64 x, .f64 y => .ok (.f64 (x - y))
  | .f64 x, .u64 y => .ok (.f64 (x - (y : Rat)))
  | .f64 x, .i64 y => .ok (.f64 (x - (y : Rat)))
  | .f64 _, _ => .fault
  | _, _ => .badOp

/-- `OpMulti` block of `expr.Expr`. -/
def exprMulti : EVal → EVal → ExprOut
  | .u64 x, .u64 y => .ok (.u64 ((x * y) % 2 ^ 64))
  | .u64 x, .i64 y => .ok (.u64 ((x * wrapU64 y) % 2 ^ 64))
  | .u64 x, .f64 q => .ok (.u64 ((x * wrapU64 (ratTrunc q)) % 2 ^ 64))
  | .u64 _, _ => .fault
  | .i64 x, .i64 y => .ok (.i64 (wrapI64 (x * y)))
  | .i64 x, .u64 y => .ok (.i64 (wrapI64 (x * wrapI64 y)))
  | .i64 x, .f64 q => .ok (.i64 (wrapI64 (x * wrapI64 (ratTrunc q))))
  | .i64 _, _ => .fault
  | .f64 x, .f64 y => .ok (.f64 (x * y))
  | .f64 x, .u64 y => .ok (.f64 (x * (y : Rat)))
  | .f64 x, .i64 y => .ok (.f64 (x * (y : Rat)))
  | _, _ => .badOp

/-- `OpDiv` block of `expr.Expr`: the integer arms perform the host's
native division with *no* zero-divisor guard, so a zero divisor is a
runtime fault. -/
def exprDiv : EVal → EVal → ExprOut
  | .u64 x, .u64 y => if y = 0 then .fault else .ok (.u64 (x / y))
  | .u64 x, .i64 y =>
    if wrapU64 y = 0 then .fault else .ok (.u64 (x / wrapU64 y))
  | .u64 x, .f64 q =>
    if wrapU64 (ratTrunc q) = 0 then .fault
    else .ok (.u64 (x / wrapU64 (ratTrunc q)))
  | .u64 _, _ => .fault
  | .i64 x, .i64 y => if y = 0 then .fault else .ok (.i64 (wrapI64 (x.tdiv y)))
  | .i64 x, .u64 y =>
    if wrapI64 y = 0 then .fault
    else .ok (.i64 (wrapI64 (x.tdiv (wrapI64 y))))
  | .i64 x, .f64 q =>
    if wrapI64 (ratTrunc q) = 0 then .fault
    else .ok (.i64 (wrapI64 (x.tdiv (wrapI64 (ratTrunc q)))))
  | .i64 _, _ => .fault
  | .f64 x, .f64 y => .ok (.f64 (x / y))
  | .f64 x, .u64 y => .ok (.f64 (x / (y : Rat)))
  | .f64 x, .i64 y => .ok (.f64 (x / (y : Rat)))
  | _, _ => .badOp

/-- `OpMod` block of `expr.Expr`: like division, the zero divisor is an
unguarded runtime fault; a float left operand is a "bad operator" error. -/
def exprMod : EVal → EVal → ExprOut
  | .u64 x, .u64 y => if y = 0 then .fault else .ok (.u64 (x % y))
  | .u64 x, .i64 y =>
    if wrapU64 y = 0 then .fault else .ok (.u64 (x % wrapU64 y))
  | .u64 x, .f64 q =>
    if wrapU64 (ratTrunc q) = 0 then .fault
    else .ok (.u64 (x % wrapU64 (ratTrunc q)))
  | .u64 _, _ => .fault
  | .i64 x, .i64 y => if y = 0 then .fault else .ok (.i64 (wrapI64 (x.tmod y)))
  | .i64 x, .u64 y =>
    if wrapI64 y = 0 then .fault
    else .ok (.i64 (wrapI64 (x.tmod (wrapI64 y))))
  | .i64 x, .f64 q =>
    if wrapI64 (ratTrunc q) = 0 then .fault
    else .ok (.i64 (wrapI64 (x.tmod (wrapI64 (ratTrunc q)))))
  | .i64 _, _ => .fault
  | _, _ => .badOp

/-- Both-sides-to-`float64` coercion used by `OpPow` and `OpFloor`. -/
def toF64 : EVal → Option Rat
  | .f64 q => some q
  | .i64 v => some (v : Rat)
  | .u64 v => some (v : Rat)
  | _ => none

/-- `reflect.ValueOf(result).Convert(at)`: the float result of `OpPow` or
`OpFloor` converted back to the left operand's original type. -/
def convertFloatBack (a : EVal) (q : Rat) : ExprOut :=
  match a with
  | .f64 _ => .ok (.f64 q)
  | .i64 _ => .ok (.i64 (wrapI64 (ratTrunc q)))
  | .u64 _ => .ok (.u64 (wrapU64 (ratTrunc q)))
  | _ => .badOp

/-- `OpPow` block of `expr.Expr`. -/
def exprPow (a b : EVal) : ExprOut :=
  match toF64 a with
  | none => .badOp
  | some x =>
    match toF64 b with
    | none => .badOp
    | some y => convertFloatBack a (ratPow x y)

/-- `OpFloor` block of `expr.Expr`. -/
def exprFloor (a b : EVal) : ExprOut :=
  match toF64 a with
  | none => .badOp
  | some x =>
    match toF64 b with
    | none => .badOp
    | some y => convertFloatBack a ((((x / y).floor : Int)) : Rat)

/-- `expr.Expr`: an invalid left operand returns the right operand
unchanged; otherwise dispatch on the operator. -/
def Expr (op : Op) (a b : EVal) : ExprOut :=
  match a with
  | .invalid => .ok b
  | _ =>
    match op with
    | .sum => exprSum a b
    | .sub => exprSub a b
    | .multi => exprMulti a b
    | .div => exprDiv a b
    | .pow => exprPow a b
    | .floor => exprFloor a b
    | .mod => exprMod a b

/-- Conversion of the right operand to the left operand's `uint64` kind,
as performed inside the `a.Kind() == reflect.Uint64` rows of the table. -/
def convU64 : EVal → Option Nat
  | .u64 v => some v
  | .i64 v => some (wrapU64 v)
  | .f64 q => some (wrapU64 (ratTrunc q))
  | _ => none

/-- Conversion of the right operand to the left operand's `int64` kind. -/
def convI64 : EVal → Option Int
  | .i64 v => some v
  | .u64 v => some (wrapI64 v)
  | .f64 q => some (wrapI64 (ratTrunc q))
  | _ => none

/-- Go `uint64` arithmetic for the five direct operators (division and
modulo by zero fault). -/
def uArith (op : Op) (x y : Nat) : ExprOut :=
  match op with
  | .sum => .ok (.u64 ((x + y) % 2 ^ 64))
  | .sub => .ok (.u64 (wrapU64 ((x : Int) - y)))
  | .multi => .ok (.u64 ((x * y) % 2 ^ 64))
  | .div => if y = 0 then .fault else .ok (.u64 (x / y))
  | .mod => if y = 0 then .fault else .ok (.u64 (x % y))
  | _ => .badOp

/-- Go `int64` arithmetic for the five direct operators. -/
def iArith (op : Op) (x y : Int) : ExprOut :=
  match op with
  | .sum => .ok (.i64 (wrapI64 (x + y)))
  | .sub => .ok (.i64 (wrapI64 (x - y)))
  | .multi => .ok (.i64 (wrapI64 (x * y)))
  | .div => if y = 0 then .fault else .ok (.i64 (wrapI64 (x.tdiv y)))
  | .mod => if y = 0 then .fault else .ok (.i64 (wrapI64 (x.tmod y)))
  | _ => .badOp

/-- Go `float64` arithmetic for the direct operators (`%` has no float
form and is a "bad operator" error). -/
def fArith (op : Op) (x y : Rat) : ExprOut :=
  match op with
  | .sum => .ok (.f64 (x + y))
  | .sub => .ok (.f64 (x - y))
  | .multi => .ok (.f64 (x * y))
  | .div => .ok (.f64 (x / y))
  | _ => .badOp

/-- The promotion rule the code actually implements for the five direct
operators on numeric operands: the *left* operand's normalized kind wins,
and the right operand is converted to it (floats are truncated toward
zero when the left side is an integer kind). -/
def leftKindSem (op : Op) (a b : EVal) : Option ExprOut :=
  match a with
  | .u64 x => (convU64 b).map (uArith op x)
  | .i64 x => (convI64 b).map (iArith op x)
  | .f64 x => (toF64 b).map (fArith op x)
  | _ => none

/-- The mixed-pair promotion rule exactly as claim C3 states it: a mixed
unsigned/signed integer pair is evaluated with signed 64-bit (`int`)
semantics, and a pair in which either operand is a float is evaluated with
both sides promoted to `float64`.  Defined only on mixed and float pairs,
the pairs the claim speaks about. -/
def claimC3Mixed (op : Op) (a b : EVal) : Option ExprOut :=
  match a, b with
  | .u64 x, .i64 y => some (iArith op (wrapI64 x) y)
  | .i64 x, .u64 y => some (iArith op x (wrapI64 y))
  | .f64 x, .f64 y => some (fArith op x y)
  | .f64 x, .i64 y => some (fArith op x (y : Rat))
  | .f64 x, .u64 y => some (fArith op x (y : Rat))
  | .i64 x, .f64 y => some (fArith op (x : Rat) y)
  | .u64 x, .f64 y => some (fArith op (x : Rat) y)
  | _, _ => none

/-- **C3** fails on the code (counterexample): `uint64(10) / int64(-2)` is
evaluated with *unsigned* semantics — the right operand is reinterpreted
as `2^64 - 2` and the quotient is `0` — where the claim's signed
semantics demand `-5`; and `int64(7) / float64(2)` is evaluated with
*integer* semantics — the float is truncated to `int64(2)` giving `3` —
where the claim's float promotion demands `3.5`. -/
theorem expr_mixed_promotion_counterexample :
    Expr .div (.u64 10) (.i64 (-2)) = .ok (.u64 0)
    ∧ claimC3Mixed .div (.u64 10) (.i64 (-2)) = some (.ok (.i64 (-5)))
    ∧ (ExprOut.ok (.u64 0)) ≠ .ok (.i64 (-5))
    ∧ Expr .div (.i64 7) (.f64 2) = .ok (.i64 3)
    ∧ claimC3Mixed .div (.i64 7) (.f64 2)
        = some (.ok (.f64 (((7 : Int) : Rat) / 2)))
    ∧ ((7 : Int) : Rat) / 2 ≠ ((3 : Int) : Rat)
    ∧ (ExprOut.ok (.i64 3)) ≠ .ok (.f64 (((7 : Int) : Rat) / 2)) := by
  refine ⟨by decide, by decide, by decide, by decide, rfl, by norm_num,
    by decide⟩

/-- **C3 amended**: after normalization, the five direct arithmetic
operators evaluate every numeric pair in the *left* operand's kind — the
right operand is converted to that kind (a mixed `uint64`/`int64` pair
uses the left side's signedness, and a float meeting an integer left
operand is truncated to that integer kind; both sides are evaluated as
`float64` only when the left operand is the float).  (`^` and `\`
separately coerce both operands to float and convert the result back to
the left operand's original type, as the spec states elsewhere.) -/
theorem expr_basic_ops_left_kind (op : Op) (a b : EVal)
    (hop : op = .sum ∨ op = .sub ∨ op = .multi ∨ op = .div ∨ op = .mod)
    (ha : a.isNum = true) (hb : b.isNum = true) :
    some (Expr op a b) = leftKindSem op a b := by
  rcases hop with h | h | h | h | h <;> subst h <;> cases a <;> cases b <;>
    first
      | rfl
      | simp [EVal.isNum] at ha hb

/-- Witness for `expr_basic_ops_left_kind` at `uint64(10) / int64(-2)`:
the left-kind semantics agree with the evaluator, producing `uint64(0)`. -/
theorem expr_basic_ops_left_kind_witness :
    some (Expr .div (.u64 10) (.i64 (-2)))
        = leftKindSem .div (.u64 10) (.i64 (-2))
    ∧ Expr .div (.u64 10) (.i64 (-2)) = .ok (.u64 0) :=
  ⟨expr_basic_ops_left_kind .div (.u64 10) (.i64 (-2))
      (Or.inr (Or.inr (Or.inr (Or.inl rfl)))) (by decide) (by decide),
    by decide⟩

/-- **C4**: for every pair of integer operands with a zero right operand
(after conversion to the left kind), the evaluator's '/' and '%' reach the
host's native integer division unguarded and fault, in all four
signed/unsigned combinations — never a value, never the recoverable
"bad operator" error. -/
theorem expr_intDivMod_zero_divisor_faults (x : Int) (n : Nat) :
    Expr .div (.i64 x) (.i64 0) = .fault
    ∧ Expr .div (.u64 n) (.u64 0) = .fault
    ∧ Expr .div (.i64 x) (.u64 0) = .fault
    ∧ Expr .div (.u64 n) (.i64 0) = .fault
    ∧ Expr .mod (.i64 x) (.i64 0) = .fault
    ∧ Expr .mod (.u64 n) (.u64 0) = .fault
    ∧ Expr .mod (.i64 x) (.u64 0) = .fault
    ∧ Expr .mod (.u64 n) (.i64 0) = .fault := by
  refine ⟨?_, ?_, ?_, ?_, ?_, ?_, ?_, ?_⟩ <;>
    norm_num [Expr, exprDiv, exprMod, wrapU64, wrapI64]

/-! ### Function registry (funcs/funcs.go)

A registered value is modelled by its reflected shape: a function carries
its result-type list and an opaque payload number identifying the
callable; anything else is `nonFunc`.  The context-factory detection of
`NewFuncValue` (a one-`*Context`-argument callable) is orthogonal to the
claims below and is not modelled; `FuncValues` stores the shape directly.
`unicode.IsLetter`/`unicode.IsDigit` are modelled by `Char.isAlpha`/
`Char.isDigit`, which agree on the ASCII range used by every theorem
below. -/

inductive RType where
  | errorT | otherT
deriving DecidableEq, Repr

inductive GoVal where
  | func (outs : List RType) (payload : Nat)
  | nonFunc
deriving DecidableEq, Repr

/-- `GoodFunc`: 0 or 1 results, or 2 results where the second is an
error. -/
def GoodFunc (outs : List RType) : Bool :=
  match outs.length with
  | 0 | 1 => true
  | 2 => outs.getD 1 .otherT = .errorT
  | _ => false

/-- The per-rune loop of `GoodName`; `i` is the rune position (the Go code
uses the byte offset, but only `i == 0` is ever consulted and the first
rune is at offset 0 either way). -/
def goodNameAux : Nat → List Char → Bool
  | _, [] => true
  | i, c :: rest =>
    if c = '_' then goodNameAux (i + 1) rest
    else if i = 0 && !c.isAlpha then false
    else if !c.isAlpha && !c.isDigit then false
    else goodNameAux (i + 1) rest

/-- `GoodName` reports whether the function name is a valid identifier. -/
def GoodName (name : String) : Bool :=
  name ≠ "" && goodNameAux 0 name.data

/-- Validation failures of the registry. -/
inductive FuncErr where
  | badName
  | notAFunction
  | badReturnType
deriving DecidableEq, Repr

/-- `CheckFuncValue(name, vf)`: the name is used only in the error
message; the checks look at the value alone.  (The `!vf.IsValid()` branch
of the source is dead: an invalid value has kind `Invalid`, caught by the
first check.) -/
def CheckFuncValue (vf : GoVal) : Option FuncErr :=
  match vf with
  | .nonFunc => some .notAFunction
  | .func outs _ => if GoodFunc outs then none else some .badReturnType

/-- `CheckName`. -/
def CheckName (name : String) : Option FuncErr :=
  if GoodName name then none else some .badName

/-- `CheckFunc`: name first, then value.  (No registration entry point of
the repository calls this helper.) -/
def CheckFunc (name : String) (f : GoVal) : Option FuncErr :=
  match CheckName name with
  | some e => some e
  | none => CheckFuncValue f

/-- One layer `map[string]*FuncValue`, as an association list; Go map
assignment replaces an existing key in place or appends a new one. -/
def alSet (m : List (String × GoVal)) (name : String) (value : GoVal) :
    List (String × GoVal) :=
  match m with
  | [] => [(name, value)]
  | (n, f) :: rest =>
    if n = name then (name, value) :: rest else (n, f) :: alSet rest name value

/-- `FuncValues` is `[]map[string]*FuncValue`: an outer-to-inner layer
list. -/
abbrev FuncValues := List (List (String × GoVal))

/-- `FuncValues.Get`: first match across the layers, in order. -/
def fvGet (v : FuncValues) (name : String) : Option GoVal :=
  match v with
  | [] => none
  | m :: rest =>
    match List.lookup name m with
    | some f => some f
    | none => fvGet rest name

/-- The unchecked store of `SetValue`: materialize layer 0 if the slice is
empty, then assign into it. -/
def fvSetRaw (v : FuncValues) (name : String) (value : GoVal) : FuncValues :=
  match v with
  | [] => [alSet [] name value]
  | m :: rest => alSet m name value :: rest

/-- `FuncValues.SetPair` with the default `check = true`: validate via
`CheckFuncValue` — which never consults the name — then store. -/
def fvSetPair (v : FuncValues) (name : String) (f : GoVal) (check : Bool) :
    Except FuncErr FuncValues :=
  if check then
    match CheckFuncValue f with
    | some e => .error e
    | none => .ok (fvSetRaw v name f)
  else .ok (fvSetRaw v name f)

/-- `FuncValues.Set(name, f)` (no explicit check flags, so `checkArg`
yields true). -/
def fvSet (v : FuncValues) (name : String) (f : GoVal) :
    Except FuncErr FuncValues :=
  fvSetPair v name f true

/-- **C5** is false on the code (counterexample): `"1bad"` is not a legal
identifier, yet registering a perfectly valid callable under it through
`FuncValues.Set` succeeds with no error — the `Set`/`SetPair`/`SetValue`
path validates only the callable via `CheckFuncValue` and never invokes
`CheckName`/`GoodName`. -/
theorem fvSet_accepts_bad_name :
    GoodName "1bad" = false
    ∧ fvSet [] "1bad" (.func [] 0) = .ok [[("1bad", .func [] 0)]] := by
  constructor
  · decide
  · rfl

/-- **C5 amended**: registration through `FuncValues.Set` fails exactly
when the supplied value is not a function or its result signature is bad
(not 0, 1, or 2 results, or 2 results whose second is not of error type);
the name — legal identifier or not — plays no part in the outcome. -/
theorem fvSet_ok_iff (v : FuncValues) (name : String) (f : GoVal) :
    (∃ v', fvSet v name f = .ok v')
      ↔ ∃ outs p, f = .func outs p ∧ GoodFunc outs = true := by
  cases f with
  | nonFunc => simp [fvSet, fvSetPair, CheckFuncValue]
  | func outs p =>
    by_cases h : GoodFunc outs = true
    · simp [fvSet, fvSetPair, CheckFuncValue, h]
    · simp [fvSet, fvSetPair, CheckFuncValue, h]

/-! ### Template-call depth guard (exec.go `State.walkTemplate`)

`walkTemplate` looks the callee up in the namespace (`errorf` when
undefined), then raises "exceeded maximum template depth" when the
interpreter's depth counter *equals* `maxExecDepth`, and otherwise walks
the callee's body with the counter incremented by one.  For this claim a
template body is abstracted to the sequence of template-call nodes it
contains (argument binding, function overrides and variable-stack slicing
do not influence the depth guard).  The recursion is driven by explicit
fuel; `walkTemplateRun` starts with `fuel = maxExecDepth` and depth 0 (a
fresh `State`'s zero value), which maintains `fuel = maxExecDepth - depth`,
so the fuel-exhaustion arm is unreachable: the `depth = maxExecDepth`
guard always fires first, exactly as in the source. -/

def maxExecDepth : Nat := 100000

structure MTmpl where
  calls : List String
deriving DecidableEq, Repr

inductive TErr where
  | undefinedTemplate (name : String)
  | maxDepthExceeded
deriving DecidableEq, Repr

mutual

def walkTemplateF (ns : List (String × MTmpl)) (fuel depth : Nat)
    (name : String) : Except TErr Unit :=
  match List.lookup name ns with
  | none => .error (.undefinedTemplate name)
  | some t =>
    if depth = maxExecDepth then .error .maxDepthExceeded
    else
      match fuel with
      | 0 => .error .maxDepthExceeded
      | fuel' + 1 => walkListF ns fuel' (depth + 1) t.calls
termination_by (fuel, 0)

def walkListF (ns : List (String × MTmpl)) (fuel depth : Nat)
    (body : List String) : Except TErr Unit :=
  match body with
  | [] => .ok ()
  | n :: rest =>
    match walkTemplateF ns fuel depth n with
    | .error e => .error e
    | .ok _ => walkListF ns fuel depth rest
termination_by (fuel, body.length + 1)

end

/-- A full nested render starting from a fresh `State` (depth 0). -/
def walkTemplateRun (ns : List (String × MTmpl)) (name : String) :
    Except TErr Unit :=
  walkTemplateF ns maxExecDepth 0 name

/-- The two-template cycle of the claim: A calls B, B calls A,
indefinitely. -/
def cycNs : List (String × MTmpl) := [("A", ⟨["B"]⟩), ("B", ⟨["A"]⟩)]

theorem walkTemplateF_at_max {ns : List (String × MTmpl)} {name : String}
    {t : MTmpl} {fuel : Nat} (h : List.lookup name ns = some t) :
    walkTemplateF ns fuel maxExecDepth name = .error .maxDepthExceeded := by
  rw [walkTemplateF, h]
  simp

theorem walkTemplateF_step {ns : List (String × MTmpl)} {name : String}
    {t : MTmpl} {fuel depth : Nat} (h : List.lookup name ns = some t)
    (hd : ¬ depth = maxExecDepth) :
    walkTemplateF ns (fuel + 1) depth name
      = walkListF ns fuel (depth + 1) t.calls := by
  rw [walkTemplateF, h]
  simp [hd]

theorem walkListF_cons (ns : List (String × MTmpl)) (fuel depth : Nat)
    (n : String) (rest : List String) :
    walkListF ns fuel depth (n :: rest)
      = match walkTemplateF ns fuel depth n with
        | .error e => .error e
        | .ok _ => walkListF ns fuel depth rest := by
  rw [walkListF]

theorem walkTemplateF_cycle (fuel depth : Nat)
    (h : depth + fuel = maxExecDepth) :
    walkTemplateF cycNs fuel depth "A" = .error .maxDepthExceeded
    ∧ walkTemplateF cycNs fuel depth "B" = .error .maxDepthExceeded := by
  have hA : List.lookup "A" cycNs = some ⟨["B"]⟩ := by decide
  have hB : List.lookup "B" cycNs = some ⟨["A"]⟩ := by decide
  induction fuel generalizing depth with
  | zero =>
    have hd : depth = maxExecDepth := by omega
    subst hd
    exact ⟨walkTemplateF_at_max hA, walkTemplateF_at_max hB⟩
  | succ f ih =>
    have hd : ¬ depth = maxExecDepth := by omega
    have h' : (depth + 1) + f = maxExecDepth := by omega
    have ihA := (ih (depth + 1) h').1
    have ihB := (ih (depth + 1) h').2
    constructor
    · rw [walkTemplateF_step hA hd, walkListF_cons, ihB]
    · rw [walkTemplateF_step hB hd, walkListF_cons, ihA]

/-- **C6**: every chain of nested template calls is bounded by the
constant `maxExecDepth = 100000`: `walkTemplate` raises the deterministic
"exceeded maximum template depth" error as soon as the depth counter
reaches that constant (for any namespace and defined callee), and the
cyclic call graph A→B→A→… always terminates in exactly that error when
started from a fresh interpreter state, instead of recursing
unboundedly. -/
theorem walkTemplate_depth_bound (ns : List (String × MTmpl))
    (name : String) (t : MTmpl) (fuel : Nat)
    (h : List.lookup name ns = some t) :
    walkTemplateF ns fuel maxExecDepth name = .error .maxDepthExceeded
    ∧ walkTemplateRun cycNs "A" = .error .maxDepthExceeded := by
  constructor
  · exact walkTemplateF_at_max h
  · exact (walkTemplateF_cycle maxExecDepth 0 (by omega)).1

/-- Witness for `walkTemplate_depth_bound` at the concrete cyclic
namespace. -/
theorem walkTemplate_depth_bound_witness :
    walkTemplateF cycNs 5 maxExecDepth "A" = .error .maxDepthExceeded
    ∧ walkTemplateRun cycNs "A" = .error .maxDepthExceeded :=
  walkTemplate_depth_bound cycNs "A" ⟨["B"]⟩ 5 (by decide)

/-! ### Wrap nodes (io.go `wrapWriter.Write`, exec.go `State.walkWrap`)

`walkWrap` routes the body's output through a `wrapWriter` that buffers
leading whitespace (or discards it, in strip mode) and fires the deferred
`begin` callback — which walks the optional begin-list against the real
writer — right before the first non-whitespace byte is forwarded.  We
record the traffic that reaches the *real* writer as an event trace:
`begin` marks the begin callback running (including its begin-list
output), `bytes` a forwarded chunk, `after`/`elseL` the after-list or
else-list being walked.  Bytes are `Nat`s; whitespace is space, tab, CR,
LF. -/

def isWS (b : Nat) : Bool := b = 32 || b = 9 || b = 13 || b = 10

inductive WEvent where
  | begin
  | bytes (bs : List Nat)
  | after
  | elseL
deriving DecidableEq, Repr

structure WrapW where
  noEmpty : Bool
  strip : Bool
  buf : List Nat
  out : List WEvent
deriving DecidableEq, Repr

/-- `wrapWriter.Write`: empty writes return immediately; once `noEmpty`
is set everything is forwarded; otherwise the leading-whitespace split of
the chunk is computed (the Go loop over `p` with the `i--`/`break` idiom
is exactly `takeWhile`/`dropWhile`), whitespace is buffered (non-strip)
or dropped (strip), and the first surviving non-whitespace byte sets
`noEmpty`, fires `begin`, and forwards the buffered prefix plus the rest
(non-strip) or just the rest (strip). -/
def wrapWrite (w : WrapW) (p : List Nat) : WrapW :=
  if p.length = 0 then w
  else if w.noEmpty then { w with out := w.out ++ [.bytes p] }
  else
    let pre := p.takeWhile isWS
    let rest := p.dropWhile isWS
    if w.strip then
      if rest.length = 0 then w
      else { w with noEmpty := true, out := w.out ++ [.begin, .bytes rest] }
    else
      if rest.length = 0 then { w with buf := w.buf ++ pre }
      else
        ⟨true, w.strip, [], w.out ++ [.begin, .bytes (w.buf ++ pre ++ rest)]⟩

/-- `State.walkWrap`: walk the body through a fresh `wrapWriter`; then, if
any non-whitespace byte was forwarded, walk the after-list (if any),
otherwise restore the real writer and walk the else-list (if any). -/
def walkWrap (strip : Bool) (body : List (List Nat))
    (hasAfter hasElse : Bool) : List WEvent :=
  let w := body.foldl wrapWrite ⟨false, strip, [], []⟩
  if w.noEmpty then w.out ++ (if hasAfter then [.after] else [])
  else w.out ++ (if hasElse then [.elseL] else [])

theorem wrapWrite_ws (w : WrapW) (p : List Nat)
    (hw : ∀ b ∈ p, isWS b = true) (hne : w.noEmpty = false) :
    (wrapWrite w p).noEmpty = false ∧ (wrapWrite w p).out = w.out := by
  unfold wrapWrite
  have hrest : p.dropWhile isWS = [] := List.dropWhile_eq_nil_iff.mpr hw
  by_cases hp : p.length = 0
  · simp [hp, hne]
  · simp only [hp, if_false, hne, Bool.false_eq_true, hrest]
    by_cases hs : w.strip = true <;> simp [hs, hne]

theorem wrapWrite_nonws (w : WrapW) (p : List Nat)
    (hne : w.noEmpty = false) (hnw : ∃ b ∈ p, isWS b = false) :
    (wrapWrite w p).noEmpty = true
    ∧ ∃ bs, (wrapWrite w p).out = w.out ++ [.begin, .bytes bs] := by
  obtain ⟨b, hb, hbw⟩ := hnw
  have hp : ¬ p.length = 0 := by
    intro hc
    rw [List.length_eq_zero.mp hc] at hb
    simp at hb
  have hrest : ¬ (p.dropWhile isWS).length = 0 := by
    intro hc
    have := List.dropWhile_eq_nil_iff.mp (List.length_eq_zero.mp hc) b hb
    simp [this] at hbw
  unfold wrapWrite
  simp only [hp, if_false, hne, Bool.false_eq_true, hrest]
  by_cases hs : w.strip = true <;> simp [hs]

theorem wrapWrite_after (w : WrapW) (p : List Nat) (h : w.noEmpty = true) :
    (wrapWrite w p).noEmpty = true
    ∧ ∃ extra, (wrapWrite w p).out = w.out ++ extra
        ∧ extra.count WEvent.begin = 0 := by
  unfold wrapWrite
  by_cases hp : p.length = 0
  · exact ⟨by simp [hp, h], [], by simp [hp, h], rfl⟩
  · refine ⟨by simp [hp, h], [.bytes p], by simp [hp, h], by simp⟩

theorem foldl_wrapWrite_after (body : List (List Nat)) (w : WrapW)
    (h : w.noEmpty = true) :
    (body.foldl wrapWrite w).noEmpty = true
    ∧ ∃ extra, (body.foldl wrapWrite w).out = w.out ++ extra
        ∧ extra.count WEvent.begin = 0 := by
  induction body generalizing w with
  | nil => exact ⟨h, [], by simp, rfl⟩
  | cons p rest ih =>
    obtain ⟨h1, e1, he1, hc1⟩ := wrapWrite_after w p h
    obtain ⟨h2, e2, he2, hc2⟩ := ih (wrapWrite w p) h1
    refine ⟨h2, e1 ++ e2, ?_, ?_⟩
    · simp [List.foldl_cons, he2, he1]
    · simp [List.count_append, hc1, hc2]

theorem foldl_wrapWrite_ws (body : List (List Nat)) (w : WrapW)
    (hw : ∀ chunk ∈ body, ∀ b ∈ chunk, isWS b = true)
    (hne : w.noEmpty = false) :
    (body.foldl wrapWrite w).noEmpty = false
    ∧ (body.foldl wrapWrite w).out = w.out := by
  induction body generalizing w with
  | nil => exact ⟨hne, rfl⟩
  | cons p rest ih =>
    obtain ⟨h1, ho1⟩ := wrapWrite_ws w p (hw p (by simp)) hne
    obtain ⟨h2, ho2⟩ := ih (wrapWrite w p)
      (fun c hc => hw c (by simp [hc])) h1
    exact ⟨h2, by simp [List.foldl_cons, ho2, ho1]⟩

theorem foldl_wrapWrite_first_nonws (body : List (List Nat)) (w : WrapW)
    (hne : w.noEmpty = false) (hout : w.out = [])
    (hnw : ∃ chunk ∈ body, ∃ b ∈ chunk, isWS b = false) :
    (body.foldl wrapWrite w).noEmpty = true
    ∧ ∃ tl, (body.foldl wrapWrite w).out = .begin :: tl
        ∧ ((body.foldl wrapWrite w).out).count WEvent.begin = 1 := by
  induction body generalizing w with
  | nil => simp at hnw
  | cons p rest ih =>
    by_cases hc : ∀ b ∈ p, isWS b = true
    · obtain ⟨h1, ho1⟩ := wrapWrite_ws w p hc hne
      have hnw' : ∃ chunk ∈ rest, ∃ b ∈ chunk, isWS b = false := by
        obtain ⟨c, hcm, b, hbm, hbw⟩ := hnw
        rcases List.mem_cons.mp hcm with hcp | hcr
        · subst hcp
          rw [hc b hbm] at hbw
          simp at hbw
        · exact ⟨c, hcr, b, hbm, hbw⟩
      exact ih (wrapWrite w p) h1 (ho1.trans hout) hnw'
    · have hnw1 : ∃ b ∈ p, isWS b = false := by
        push_neg at hc
        obtain ⟨b, hbm, hbw⟩ := hc
        exact ⟨b, hbm, by simpa using hbw⟩
      obtain ⟨h1, bs, ho1⟩ := wrapWrite_nonws w p hne hnw1
      obtain ⟨h2, extra, ho2, hc2⟩ :=
        foldl_wrapWrite_after rest (wrapWrite w p) h1
      rw [ho1, hout] at ho2
      refine ⟨h2, .bytes bs :: extra, ?_, ?_⟩
      · simp [List.foldl_cons, ho2]
      · simp [List.foldl_cons, ho2, List.count_cons, List.count_append, hc2]

/-- **C7**: a Wrap node whose body writes only whitespace bytes (space,
tab, CR, LF) or nothing never runs its begin-list or after-list and walks
the else-list, if present, against the real writer (the trace is exactly
the else event, or empty); a Wrap node whose body writes at least one
non-whitespace byte runs the begin callback exactly once, and it is the
very first event on the real writer — in particular it precedes the flush
of the first non-whitespace byte. -/
theorem walkWrap_begin_semantics (strip : Bool) (body : List (List Nat))
    (hasAfter hasElse : Bool) :
    ((∀ chunk ∈ body, ∀ b ∈ chunk, isWS b = true) →
      walkWrap strip body hasAfter hasElse
        = (if hasElse then [.elseL] else []))
    ∧ ((∃ chunk ∈ body, ∃ b ∈ chunk, isWS b = false) →
      ∃ tl, walkWrap strip body hasAfter hasElse = .begin :: tl
        ∧ (walkWrap strip body hasAfter hasElse).count WEvent.begin = 1) := by
  constructor
  · intro hw
    obtain ⟨h1, ho1⟩ :=
      foldl_wrapWrite_ws body ⟨false, strip, [], []⟩ hw rfl
    unfold walkWrap
    simp [h1, ho1]
  · intro hnw
    obtain ⟨h1, tl, ho1, hc1⟩ :=
      foldl_wrapWrite_first_nonws body ⟨false, strip, [], []⟩ rfl rfl hnw
    unfold walkWrap
    simp only [h1, if_true]
    refine ⟨tl ++ (if hasAfter then [.after] else []), ?_, ?_⟩
    · rw [ho1]
      simp
    · rw [List.count_append, hc1]
      by_cases ha : hasAfter = true <;> simp [ha]

/-- Witness for `walkWrap_begin_semantics`: a body writing `" "` then
`"\t"` renders only the else-list; a body writing `" "` then `"\ta"`
(`97` = `'a'`) fires `begin` first and exactly once. -/
theorem walkWrap_begin_semantics_witness :
    walkWrap false [[32], [9]] true true = [.elseL]
    ∧ (∃ tl, walkWrap false [[32], [9, 97]] true true = .begin :: tl
        ∧ (walkWrap false [[32], [9, 97]] true true).count WEvent.begin
            = 1) := by
  constructor
  · have h := (walkWrap_begin_semantics false [[32], [9]] true true).1
      (by decide)
    simpa using h
  · exact (walkWrap_begin_semantics false [[32], [9, 97]] true true).2
      (by decide)

/-! ### Template namespaces, `Clone` and `AddParseTree` (template.go)

A `Template` holds its name, a (shared, immutable) parse-tree reference
and a pointer to its `common`, whose `tmpl` map is the namespace.  To
capture the pointer aliasing that the claim is about, `common` structures
live in an explicit store indexed by allocation order; a template refers
to its `common` by index.  A parse tree is immutable and is modelled by
an identity plus its `IsEmptyTree` flag (the only inspection `associate`
performs); copying a template shares the tree value.  Go map iteration
order is modelled by the association list's order (contents are what
matter here).  The `t.common == nil` case of `Clone` is unreachable for a
template living in the store and is not modelled (theorems carry the
in-store hypothesis). -/

structure PTree where
  id : Nat
  emptyRoot : Bool
deriving DecidableEq, Repr

structure GTmpl where
  name : String
  tree : Option PTree
  comm : Nat
deriving DecidableEq, Repr

abbrev TStore := List (List (String × GTmpl))

def getComm (s : TStore) (i : Nat) : Option (List (String × GTmpl)) :=
  s[i]?

def setComm (s : TStore) (i : Nat) (m : List (String × GTmpl)) : TStore :=
  List.set s i m

/-- `Template.Lookup`: nil `common` (a dangling index) yields none,
otherwise the namespace map is consulted. -/
def lookupTmpl (s : TStore) (t : GTmpl) (name : String) : Option GTmpl :=
  match getComm s t.comm with
  | none => none
  | some m => List.lookup name m

/-- `Template.Clone`: allocate a fresh `common`, then populate it with a
shallow copy of every template of the original namespace — the clone
itself under the original's own name, and `v.copy(nt.common)` (same name,
same shared tree, retargeted `common`) for every other entry. -/
def cloneOp (t : GTmpl) (s : TStore) : GTmpl × TStore :=
  let fresh := s.length
  let nt : GTmpl := ⟨t.name, t.tree, fresh⟩
  let m := (getComm s t.comm).getD []
  let m' := m.map fun e =>
    if e.1 = t.name then (e.1, nt) else (e.1, ⟨e.2.name, e.2.tree, fresh⟩)
  (nt, (s ++ [[]]).set fresh m')

/-- Go map assignment for the namespace map. -/
def alTSet (m : List (String × GTmpl)) (name : String) (value : GTmpl) :
    List (String × GTmpl) :=
  match m with
  | [] => [(name, value)]
  | (n, f) :: rest =>
    if n = name then (name, value) :: rest else (n, f) :: alTSet rest name value

/-- `Template.AddParseTree`: create (or reuse, when the name is the
receiver's own) the target template, run `associate` — which refuses to
replace an existing non-empty body with an empty tree and otherwise
installs the pointer in the namespace map — and finally set the target's
tree when `associate` replaced or the target had none.  Returns the
target template and the updated store. -/
def addParseTree (t : GTmpl) (name : String) (tree : PTree) (s : TStore) :
    GTmpl × TStore :=
  let nt : GTmpl := if name = t.name then t else ⟨name, none, t.comm⟩
  let m := (getComm s t.comm).getD []
  let replace :=
    match List.lookup name m with
    | some old => !(tree.emptyRoot && old.tree.isSome)
    | none => true
  if replace then
    let nt' : GTmpl := ⟨nt.name, some tree, nt.comm⟩
    (nt', setComm s t.comm (alTSet m name nt'))
  else
    (if nt.tree = none then ⟨nt.name, some tree, nt.comm⟩ else nt, s)

/-- Re-parsing in the clone: each parsed tree is installed through
`AddParseTree` on the clone root, as `Parse` does. -/
def applyOps (nt : GTmpl) (ops : List (String × PTree)) (s : TStore) :
    TStore :=
  ops.foldl (fun st op => (addParseTree nt op.1 op.2 st).2) s

theorem getComm_append_lt (s : TStore) (m : List (String × GTmpl)) (i : Nat)
    (h : i < s.length) : getComm (s ++ [m]) i = getComm s i := by
  simp [getComm, List.getElem?_append, h]

theorem getComm_set_ne (s : TStore) (i j : Nat) (m : List (String × GTmpl))
    (h : j ≠ i) : getComm (List.set s i m) j = getComm s j := by
  simp [getComm, List.getElem?_set_ne (Ne.symm h)]

/-- `AddParseTree` touches only the receiver's own `common`. -/
theorem addParseTree_getComm_ne (t : GTmpl) (name : String) (tree : PTree)
    (s : TStore) (j : Nat) (h : j ≠ t.comm) :
    getComm (addParseTree t name tree s).2 j = getComm s j := by
  unfold addParseTree
  simp only []
  split
  · exact getComm_set_ne s t.comm j _ h
  · rfl

theorem applyOps_getComm_ne (nt : GTmpl) (ops : List (String × PTree))
    (s : TStore) (j : Nat) (h : j ≠ nt.comm) :
    getComm (applyOps nt ops s) j = getComm s j := by
  induction ops generalizing s with
  | nil => rfl
  | cons op rest ih =>
    show getComm (applyOps nt rest (addParseTree nt op.1 op.2 s).2) j = _
    rw [ih, addParseTree_getComm_ne nt op.1 op.2 s j h]

theorem lookup_clone_map (m : List (String × GTmpl)) (tname name : String)
    (nt : GTmpl) (fresh : Nat) (h : name ≠ tname) :
    List.lookup name
        (m.map fun e =>
          if e.1 = tname then (e.1, nt)
          else (e.1, (⟨e.2.name, e.2.tree, fresh⟩ : GTmpl)))
      = (List.lookup name m).map fun v => ⟨v.name, v.tree, fresh⟩ := by
  induction m with
  | nil => rfl
  | cons e rest ih =>
    obtain ⟨k, w⟩ := e
    simp only [List.map_cons]
    by_cases he : k = tname
    · rw [if_pos he]
      have hne : (name == k) = false := by
        refine beq_false_of_ne ?_
        rw [he]
        exact h
      simp only [List.lookup, hne, ih]
    · rw [if_neg he]
      by_cases hn : (name == k) = true
      · simp only [List.lookup, hn]
        rfl
      · have hnf : (name == k) = false := by
          simpa using hn
        simp only [List.lookup, hnf, ih]

/-- **C8**: `Clone` gives the copy an independent namespace map (a fresh
`common`) while sharing the immutable body trees: any sequence of
`AddParseTree` installs (adds or re-parses) performed on the clone leaves
every lookup against the original namespace unchanged — in particular a
name absent from the original before the clone still resolves to none
afterwards — and immediately after the clone every name other than the
receiver's own resolves in the copy to a template carrying the *same*
tree as in the original. -/
theorem clone_namespace_independent (s : TStore) (t : GTmpl)
    (ops : List (String × PTree)) (ht : t.comm < s.length) :
    (cloneOp t s).1.comm ≠ t.comm
    ∧ (∀ name,
        lookupTmpl (applyOps (cloneOp t s).1 ops (cloneOp t s).2) t name
          = lookupTmpl s t name)
    ∧ (∀ name v, List.lookup name ((getComm s t.comm).getD []) = some v →
        name ≠ t.name →
        (lookupTmpl (cloneOp t s).2 (cloneOp t s).1 name).map GTmpl.tree
          = some v.tree) := by
  have hcommNe : t.comm ≠ s.length := Nat.ne_of_lt ht
  refine ⟨Ne.symm hcommNe, ?_, ?_⟩
  · intro name
    have h1 : getComm (applyOps (cloneOp t s).1 ops (cloneOp t s).2) t.comm
        = getComm (cloneOp t s).2 t.comm :=
      applyOps_getComm_ne _ ops _ t.comm hcommNe
    have h2 : getComm (cloneOp t s).2 t.comm = getComm s t.comm := by
      show getComm (List.set (s ++ [[]]) s.length _) t.comm = getComm s t.comm
      rw [getComm_set_ne _ _ _ _ hcommNe]
      exact getComm_append_lt s [] t.comm ht
    unfold lookupTmpl
    rw [h1, h2]
  · intro name v hv hne
    have hfresh : getComm (cloneOp t s).2 s.length
        = some (((getComm s t.comm).getD []).map fun e =>
            if e.1 = t.name then (e.1, (⟨t.name, t.tree, s.length⟩ : GTmpl))
            else (e.1, ⟨e.2.name, e.2.tree, s.length⟩)) := by
      show getComm (List.set (s ++ [[]]) s.length _) s.length = _
      have hlen : s.length < (s ++ [[]]).length := by simp
      simp [getComm, List.getElem?_set_self, hlen]
    show (match getComm (cloneOp t s).2 (cloneOp t s).1.comm with
      | none => none
      | some m => List.lookup name m).map GTmpl.tree = some v.tree
    have hc : (cloneOp t s).1.comm = s.length := rfl
    rw [hc, hfresh]
    simp only []
    rw [lookup_clone_map _ t.name name _ s.length hne, hv]
    rfl

/-- A one-template namespace and its root, for the clone witness. -/
def sW : TStore := [[("main", ⟨"main", some ⟨1, false⟩, 0⟩)]]

def tW : GTmpl := ⟨"main", some ⟨1, false⟩, 0⟩

/-- Witness for `clone_namespace_independent`: adding `"new"` to the clone
leaves `"new"` unresolvable against the original namespace. -/
theorem clone_namespace_independent_witness :
    lookupTmpl (applyOps (cloneOp tW sW).1 [("new", ⟨2, false⟩)]
        (cloneOp tW sW).2) tW "new" = none := by
  have h := (clone_namespace_independent sW tW [("new", ⟨2, false⟩)]
    (by decide)).2.1 "new"
  rw [h]
  decide

/-! ### Render entry points: `Executor.Execute` / `ExecuteString`
(executor.go)

For C9 a single render attempt is characterized at the `execute`
boundary by the bytes it writes to the writer it is handed and the error
it returns; `Execute` hands `execute` the caller's writer, so partial
output lands there even on failure, while `ExecuteString` hands it a
fresh buffer and discards that buffer when the error is non-nil. -/

/-- `Executor.Execute(wr, …)` at the writer boundary: whatever `execute`
produced was appended to the caller's writer, error or not. -/
def executeToWriter (w : List Nat) (produced : List Nat)
    (err : Option String) : List Nat × Option String :=
  (w ++ produced, err)

/-- `Executor.ExecuteString`: render into a fresh buffer; on error return
the empty string, otherwise the buffer's contents. -/
def ExecuteString (produced : List Nat) (err : Option String) :
    List Nat × Option String :=
  let out := executeToWriter [] produced err
  match out.2 with
  | some e => ([], some e)
  | none => (out.1, none)

/-- **C9**: `ExecuteString` is atomic at its interface: whenever rendering
fails the returned string is exactly empty — partial output produced
before the failure is discarded — while on success the full buffered
output is returned; `Execute` to a writer, by contrast, leaves partial
output written even when it reports the error. -/
theorem executeString_atomic (produced w : List Nat) (err : String) :
    ExecuteString produced (some err) = ([], some err)
    ∧ ExecuteString produced none = (produced, none)
    ∧ executeToWriter w produced (some err) = (w ++ produced, some err) :=
  ⟨rfl, rfl, rfl⟩

/-! ### Executor function scoping and data dispatch (executor.go)

Executors form a parent chain; `NewChild` allocates a fresh executor with
an empty scope (`CreateValuesFunc()` of no maps) pointing at its parent,
`SetFuncs` replaces the child's own top scope, and `FindFunc` resolves
outward.  `Execute` inspects the data argument: a `*DataFuncs` is
unwrapped (its functions join a fresh child's scope, its inner value
becomes the data), and a bare `FuncMap`/`FuncValues` merges into a fresh
child with `nil` data.  `templateExec`/state internals are out of scope;
the dispatch is modelled up to the `execute(wr, data)` call, whose `data`
argument determines the dot (`dnil` elaborates to the invalid
`reflect.Value`). -/

abbrev FuncMap := List (String × GoVal)

/-- `NewValues`: one fresh empty layer followed by every non-empty layer
of the arguments, in order. -/
def NewValues (items : List FuncValues) : FuncValues :=
  [[]] ++ items.flatMap (fun item => item.filter (fun e => e.length > 0))

/-- `FuncValues.Append` over one `FuncMap` (each entry goes through
`Set`, so a bad callable aborts). -/
def fvAppend (v : FuncValues) (funcMap : FuncMap) :
    Except FuncErr FuncValues :=
  funcMap.foldlM (fun acc p => fvSet acc p.1 p.2) v

/-- `CreateValuesFunc`. -/
def CreateValuesFunc (funcMaps : List FuncMap) : Except FuncErr FuncValues :=
  funcMaps.foldlM fvAppend (NewValues [])

inductive Exec where
  | mk (funcs : FuncValues) (parent : Option Exec)

def Exec.funcs : Exec → FuncValues
  | .mk f _ => f

def Exec.parent : Exec → Option Exec
  | .mk _ p => p

/-- `Executor.NewChild`: fresh empty scope, parent link to the
receiver. -/
def Exec.NewChild (e : Exec) : Exec := .mk [[]] (some e)

/-- `Executor.SetFuncs`. -/
def Exec.SetFuncs (e : Exec) (values : FuncValues) : Exec :=
  .mk values e.parent

/-- `Executor.FuncsValues`: with at least one argument, a fresh child
whose scope is `NewValues` of the arguments. -/
def Exec.FuncsValues (e : Exec) (funcValues : List FuncValues) : Exec :=
  if funcValues.length > 0 then e.NewChild.SetFuncs (NewValues funcValues)
  else e

/-- `Executor.Funcs`: with at least one map, build the values (a failure
panics in Go, modelled as the error outcome) and install them on a fresh
child. -/
def Exec.Funcs (e : Exec) (funcMaps : List FuncMap) :
    Except FuncErr Exec :=
  if funcMaps.length > 0 then
    match CreateValuesFunc funcMaps with
    | .error err => .error err
    | .ok fv => .ok (e.NewChild.SetFuncs fv)
  else .ok e

/-- `Executor.FindFunc`: own scope first, then the parent chain. -/
def Exec.FindFunc : Exec → String → Option GoVal
  | .mk fns p, name =>
    match fvGet fns name with
    | some f => some f
    | none =>
      match p with
      | some par => par.FindFunc name
      | none => none

/-- The dynamically-typed data argument of `Execute`. -/
inductive EData where
  | dnil
  | plain (v : Nat)
  | funcMap (m : FuncMap)
  | funcValues (fv : FuncValues)
  | dataFuncs (fv : FuncValues) (inner : EData)

/-- An element of the variadic `funcs_` argument of `Execute`. -/
inductive ExtraFuncs where
  | fmap (m : FuncMap)
  | fvalues (v : FuncValues)
  | invalid

/-- The `funcs_` merging loop of `Execute` (`AppendFuncs` /
`AppendFuncsValues`; anything else is the invalid-func error). -/
def applyExtras (ee : Exec) : List ExtraFuncs → Except FuncErr Exec
  | [] => .ok ee
  | .fmap m :: rest =>
    match fvAppend ee.funcs m with
    | .error err => .error err
    | .ok fv => applyExtras (.mk fv ee.parent) rest
  | .fvalues v :: rest => applyExtras (.mk (ee.funcs ++ v) ee.parent) rest
  | .invalid :: _ => .error .notAFunction

/-- What reaches `execute(wr, data)`: the executor that will run and the
data value that becomes the dot. -/
structure Dispatched where
  exec : Exec
  dot : EData

/-- `Executor.Execute` up to the `execute` call: merge any extra function
arguments into a fresh child, then dispatch on the data's dynamic type. -/
def Exec.ExecuteDispatch (e : Exec) (data : EData)
    (extra : List ExtraFuncs) : Except FuncErr Dispatched :=
  match (if extra.length > 0 then applyExtras e.NewChild extra
    else .ok e) with
  | .error err => .error err
  | .ok ee =>
    match data with
    | .dataFuncs fv inner => .ok ⟨ee.FuncsValues [fv], inner⟩
    | .funcMap m =>
      match ee.Funcs [m] with
      | .error err => .error err
      | .ok ex => .ok ⟨ex, .dnil⟩
    | .funcValues fv => .ok ⟨ee.FuncsValues [fv], .dnil⟩
    | d => .ok ⟨ee, d⟩

theorem alSet_lookup_self (l : List (String × GoVal)) (name : String)
    (v : GoVal) : List.lookup name (alSet l name v) = some v := by
  induction l with
  | nil => simp [alSet, List.lookup]
  | cons e rest ih =>
    obtain ⟨n, f⟩ := e
    by_cases h : n = name
    · simp [alSet, h, List.lookup]
    · have hb : (name == n) = false := beq_false_of_ne (Ne.symm h)
      simp [alSet, h, List.lookup, hb, ih]

theorem alSet_lookup_ne (l : List (String × GoVal)) (n name : String)
    (v : GoVal) (h : n ≠ name) :
    List.lookup n (alSet l name v) = List.lookup n l := by
  have hb : (n == name) = false := beq_false_of_ne h
  induction l with
  | nil => simp [alSet, List.lookup, hb]
  | cons e rest ih =>
    obtain ⟨k, f⟩ := e
    by_cases hk : k = name
    · subst hk
      simp [alSet, List.lookup, hb, beq_false_of_ne h]
    · simp only [alSet, if_neg hk, List.lookup, ih]

theorem foldl_alSet_notmem (m : FuncMap) (l : List (String × GoVal))
    (name : String) (h : name ∉ m.map Prod.fst) :
    List.lookup name (m.foldl (fun acc p => alSet acc p.1 p.2) l)
      = List.lookup name l := by
  induction m generalizing l with
  | nil => rfl
  | cons p rest ih =>
    have h1 : name ∉ rest.map Prod.fst := fun hc => h (by simp [hc])
    have h2 : name ≠ p.1 := fun hc => h (by simp [hc])
    show List.lookup name (rest.foldl _ (alSet l p.1 p.2)) = _
    rw [ih _ h1, alSet_lookup_ne _ _ _ _ h2]

theorem foldl_alSet_lookup (m : FuncMap) (l : List (String × GoVal))
    (hnd : (m.map Prod.fst).Nodup) (name : String) (f : GoVal)
    (hmem : (name, f) ∈ m) :
    List.lookup name (m.foldl (fun acc p => alSet acc p.1 p.2) l)
      = some f := by
  induction m generalizing l with
  | nil => simp at hmem
  | cons p rest ih =>
    rcases List.mem_cons.mp hmem with hh | ht
    · have hnot : name ∉ rest.map Prod.fst := by
        have := (List.nodup_cons.mp hnd).1
        rw [← hh] at this
        exact this
      show List.lookup name (rest.foldl _ (alSet l p.1 p.2)) = _
      rw [foldl_alSet_notmem rest _ name hnot, ← hh, alSet_lookup_self]
    · exact ih (alSet l p.1 p.2) (List.nodup_cons.mp hnd).2 ht

theorem foldl_fvSetRaw_single (m : FuncMap) (l : List (String × GoVal)) :
    m.foldl (fun v p => fvSetRaw v p.1 p.2) [l]
      = [m.foldl (fun acc p => alSet acc p.1 p.2) l] := by
  induction m generalizing l with
  | nil => rfl
  | cons p rest ih => exact ih (alSet l p.1 p.2)

theorem fvAppend_ok (m : FuncMap) (v : FuncValues)
    (hval : ∀ p ∈ m, CheckFuncValue p.2 = none) :
    fvAppend v m = .ok (m.foldl (fun acc p => fvSetRaw acc p.1 p.2) v) := by
  induction m generalizing v with
  | nil => rfl
  | cons p rest ih =>
    have hp : CheckFuncValue p.2 = none := hval p (by simp)
    have hrest : ∀ q ∈ rest, CheckFuncValue q.2 = none :=
      fun q hq => hval q (by simp [hq])
    show List.foldlM _ v (p :: rest) = _
    rw [List.foldlM_cons]
    have hset : fvSet v p.1 p.2 = .ok (fvSetRaw v p.1 p.2) := by
      unfold fvSet fvSetPair
      rw [hp]
      rfl
    rw [hset]
    show List.foldlM (fun acc p => fvSet acc p.1 p.2) (fvSetRaw v p.1 p.2)
      rest = _
    exact ih (fvSetRaw v p.1 p.2) hrest

theorem fvGet_single (l : List (String × GoVal)) (name : String) :
    fvGet [l] name = List.lookup name l := by
  unfold fvGet
  cases List.lookup name l <;> rfl

theorem fvGet_filter_nonempty (fv : FuncValues) (name : String) :
    fvGet (fv.filter fun e => e.length > 0) name = fvGet fv name := by
  induction fv with
  | nil => rfl
  | cons l rest ih =>
    cases l with
    | nil =>
      have hf : List.filter (fun e => decide (e.length > 0)) ([] :: rest)
          = List.filter (fun e => decide (e.length > 0)) rest := by simp
      show fvGet (List.filter (fun e => decide (e.length > 0)) ([] :: rest))
        name = _
      rw [hf]
      rw [ih]
      rfl
    | cons x xs =>
      have hf : List.filter (fun e => decide (e.length > 0))
            ((x :: xs) :: rest)
          = (x :: xs) :: List.filter (fun e => decide (e.length > 0))
              rest := by simp
      show fvGet (List.filter (fun e => decide (e.length > 0))
        ((x :: xs) :: rest)) name = _
      rw [hf]
      cases hlk : List.lookup name (x :: xs) with
      | none =>
        simp only [fvGet, hlk]
        exact ih
      | some f => simp only [fvGet, hlk]

theorem fvGet_newValues (fv : FuncValues) (name : String) :
    fvGet (NewValues [fv]) name = fvGet fv name := by
  have h1 : NewValues [fv] = [] :: fv.filter (fun e => e.length > 0) := by
    simp [NewValues]
  rw [h1]
  have h2 : fvGet ([] :: fv.filter fun e => e.length > 0) name
      = fvGet (fv.filter fun e => e.length > 0) name := rfl
  rw [h2]
  exact fvGet_filter_nonempty fv name

/-- **C10**: a data value that is itself a function container never
becomes the dot.  A `FuncMap` data argument is merged — via
`CreateValuesFunc` — into the scope of a fresh child executor (its parent
is the original executor, and every registered name resolves through
`FindFunc`) and the template is rendered with nil data; a `FuncValues`
data argument likewise joins a fresh child's scope with nil data; and a
`*DataFuncs` data argument is unwrapped so that its functions join the
scope of a fresh child while only its inner data value is passed on as
the dot. -/
theorem execute_function_container_data (e : Exec) (m : FuncMap)
    (fv : FuncValues) (inner : EData)
    (hval : ∀ p ∈ m, CheckFuncValue p.2 = none)
    (hnd : (m.map Prod.fst).Nodup) :
    (∃ ex, Exec.ExecuteDispatch e (.funcMap m) [] = .ok ⟨ex, .dnil⟩
        ∧ ex.parent = some e
        ∧ ∀ name f, (name, f) ∈ m → ex.FindFunc name = some f)
    ∧ (∃ ex, Exec.ExecuteDispatch e (.funcValues fv) [] = .ok ⟨ex, .dnil⟩
        ∧ ex.parent = some e
        ∧ ∀ name f, fvGet fv name = some f → ex.FindFunc name = some f)
    ∧ (∃ ex, Exec.ExecuteDispatch e (.dataFuncs fv inner) []
          = .ok ⟨ex, inner⟩
        ∧ ex.parent = some e
        ∧ ∀ name f, fvGet fv name = some f → ex.FindFunc name = some f) := by
  refine ⟨?_, ?_, ?_⟩
  · have hap : fvAppend [[]] m
        = .ok (m.foldl (fun acc p => fvSetRaw acc p.1 p.2) [[]]) :=
      fvAppend_ok m [[]] hval
    have hcv : CreateValuesFunc [m]
        = .ok [m.foldl (fun acc p => alSet acc p.1 p.2) []] := by
      show List.foldlM fvAppend (NewValues []) [m] = _
      rw [show NewValues [] = [[]] from rfl, List.foldlM_cons, hap]
      show Except.ok (m.foldl (fun acc p => fvSetRaw acc p.1 p.2) [[]]) = _
      rw [foldl_fvSetRaw_single m []]
    have hfun : Exec.Funcs e [m]
        = .ok (.mk [m.foldl (fun acc p => alSet acc p.1 p.2) []] (some e)) := by
      show (match CreateValuesFunc [m] with
        | Except.error err => Except.error err
        | Except.ok fv' => Except.ok (e.NewChild.SetFuncs fv')) = _
      rw [hcv]
      rfl
    refine ⟨.mk [m.foldl (fun acc p => alSet acc p.1 p.2) []] (some e),
      ?_, rfl, ?_⟩
    · show (match Exec.Funcs e [m] with
        | Except.error err => Except.error err
        | Except.ok ex => Except.ok (⟨ex, .dnil⟩ : Dispatched)) = _
      rw [hfun]
    · intro name f hmem
      have hget : fvGet [m.foldl (fun acc p => alSet acc p.1 p.2) []] name
          = some f := by
        rw [fvGet_single]
        exact foldl_alSet_lookup m [] hnd name f hmem
      simp only [Exec.FindFunc, hget]
  · refine ⟨.mk (NewValues [fv]) (some e), rfl, rfl, ?_⟩
    intro name f hget
    have hget' : fvGet (NewValues [fv]) name = some f := by
      rw [fvGet_newValues]
      exact hget
    simp only [Exec.FindFunc, hget']
  · refine ⟨.mk (NewValues [fv]) (some e), rfl, rfl, ?_⟩
    intro name f hget
    have hget' : fvGet (NewValues [fv]) name = some f := by
      rw [fvGet_newValues]
      exact hget
    simp only [Exec.FindFunc, hget']

/-- Witness for `execute_function_container_data`: a root executor given
the one-entry `FuncMap` `{f ↦ func#7}` as data dispatches to a child whose
scope resolves `f`, with nil data. -/
theorem execute_function_container_data_witness :
    ∃ ex, Exec.ExecuteDispatch (.mk [[]] none)
          (.funcMap [("f", .func [] 7)]) [] = .ok ⟨ex, .dnil⟩
      ∧ ex.parent = some (.mk [[]] none)
      ∧ ex.FindFunc "f" = some (.func [] 7) := by
  obtain ⟨ex, h1, h2, h3⟩ := (execute_function_container_data
    (.mk [[]] none) [("f", .func [] 7)] [] .dnil (by decide) (by decide)).1
  exact ⟨ex, h1, h2, h3 "f" (.func [] 7) (by decide)⟩
